import Mathlib

/-!
Verification development for the chunked-translation engine of
`src/translate/markdown_translate.py` (MinerU_translate).

Texts are modelled as `List Char`.  The external tokenizer (`tiktoken`,
function `num_tokens_in_string`) is an opaque collaborator, modelled as a
parameter `tk : List Char → ℕ`; all statements are proved for every such
function.  The float window bounds `max_tokens * (1 - flex)` and
`max_tokens * (1 + flex)` are modelled in `ℚ` (for the repository's default
`token_flexibility = 0.5` and integer `max_tokens` the float arithmetic is
exact, so the rational model coincides with the source).
-/

/-- Python's whitespace class (`\s`, `str.strip()`) restricted to the ASCII
whitespace characters: space, tab, newline, carriage return, vertical tab,
form feed. -/
def isPySpace (c : Char) : Bool :=
  c = ' ' || c = '\t' || c = '\n' || c = '\r' || c = '\x0b' || c = '\x0c'

/-- Python `str.strip()`: remove leading and trailing whitespace. -/
def pyStrip (s : List Char) : List Char :=
  ((s.dropWhile isPySpace).reverse.dropWhile isPySpace).reverse

/-- A regex used by `split_text`, modelled as a matcher returning the length
of the (greedy, leftmost) match starting at the head of the given suffix,
or `none` when no match starts there.  All three patterns of the source
match at least one character, recorded by `pos`. -/
structure Splitter where
  mlen : List Char → Option ℕ
  pos : ∀ s n, mlen s = some n → 0 < n

/-- Match length of `\n#+\s` (priority 1, `title_split_pattern`): a newline,
a maximal run of `#` (at least one), then a single whitespace character.
Backtracking to a shorter `#` run can never succeed because `#` is not
whitespace, so taking the greedy run is faithful to the regex engine. -/
def titleMatchLen (s : List Char) : Option ℕ :=
  match s with
  | [] => none
  | c :: rest =>
    if c = '\n' then
      let k := (rest.takeWhile (fun x => x = '#')).length
      match rest.drop k with
      | d :: _ => if 0 < k ∧ isPySpace d = true then some (k + 2) else none
      | [] => none
    else none

/-- Match length of `\n{2,}` (priority 2, `paragraph_split_pattern`): a
maximal run of newlines of length at least 2. -/
def paraMatchLen (s : List Char) : Option ℕ :=
  let k := (s.takeWhile (fun c => c = '\n')).length
  if 2 ≤ k then some k else none

/-- Match length of `[\.\!\?]\s` (priority 3, `sentence_split_pattern`):
a sentence terminator followed by one whitespace character. -/
def sentMatchLen : List Char → Option ℕ
  | c :: d :: _ =>
    if (c = '.' ∨ c = '!' ∨ c = '?') ∧ isPySpace d = true then some 2 else none
  | _ => none

def titleSplitter : Splitter :=
  ⟨titleMatchLen, by
    intro s n h
    cases s with
    | nil => simp [titleMatchLen] at h
    | cons c rest =>
      simp only [titleMatchLen] at h
      split at h
      · split at h
        · split at h
          · simp only [Option.some.injEq] at h
            omega
          · exact absurd h (by simp)
        · exact absurd h (by simp)
      · exact absurd h (by simp)⟩

def paraSplitter : Splitter :=
  ⟨paraMatchLen, by
    intro s n h
    simp only [paraMatchLen] at h
    split at h
    · simp only [Option.some.injEq] at h
      omega
    · exact absurd h (by simp)⟩

def sentSplitter : Splitter :=
  ⟨sentMatchLen, by
    intro s n h
    match s with
    | [] => simp [sentMatchLen] at h
    | [c] => simp [sentMatchLen] at h
    | c :: d :: t =>
      simp only [sentMatchLen] at h
      split at h
      · simp only [Option.some.injEq] at h
        omega
      · exact absurd h (by simp)⟩

/-- Model of Python `re.split(pattern, s)` where the whole pattern is one
capturing group: scan left to right; at a match emit the accumulated text
and the matched delimiter as separate list entries and continue after the
match.  `buf` is the reversed accumulator of unmatched characters. -/
def reSplitGo (m : Splitter) : List Char → List Char → List (List Char)
  | buf, [] => [buf.reverse]
  | buf, c :: rest =>
    match h : m.mlen (c :: rest) with
    | some n =>
      buf.reverse :: (c :: rest).take n :: reSplitGo m [] ((c :: rest).drop n)
    | none => reSplitGo m (c :: buf) rest
termination_by _ s => s.length
decreasing_by
  · simp only [List.length_drop]
    have hn := m.pos _ _ h
    simp only [List.length_cons]
    omega
  · simp

/-- `re.split` with a single capturing group covering the whole pattern. -/
def reSplit (m : Splitter) (s : List Char) : List (List Char) :=
  reSplitGo m [] s

/-- The accumulation loop of `try_split` (`markdown_translate.py` lines
389-400): walk the delimiter-split pieces; after appending each piece to the
running buffer, commit the trimmed buffer as a chunk when its token count
lies in `[min_tokens, max_tokens_flex]`, otherwise keep accumulating.
Returns the committed chunks and the leftover buffer. -/
def try_split_go (tk : List Char → ℕ) (min_tokens max_tokens_flex : ℚ) :
    List (List Char) → List Char → List (List Char) × List Char
  | [], new_chunk => ([], new_chunk)
  | part :: parts, new_chunk =>
    let temp_chunk := new_chunk ++ part
    if min_tokens ≤ (tk temp_chunk : ℚ) ∧ (tk temp_chunk : ℚ) ≤ max_tokens_flex then
      let r := try_split_go tk min_tokens max_tokens_flex parts []
      (pyStrip temp_chunk :: r.1, r.2)
    else
      try_split_go tk min_tokens max_tokens_flex parts temp_chunk

/-- `try_split(pattern, chunk)` of the source: split `chunk` on the pattern
(keeping delimiters, as the capturing group does) and run the accumulation
loop starting from an empty buffer. -/
def try_split (tk : List Char → ℕ) (min_tokens max_tokens_flex : ℚ)
    (pattern : Splitter) (chunk : List Char) : List (List Char) × List Char :=
  try_split_go tk min_tokens max_tokens_flex (reSplit pattern chunk) []

/-- `split_text(text, max_tokens, token_flexibility)` (lines 353-417):
priority cascade title → paragraph → sentence terminator, each stage
consuming the previous stage's leftover (a stage is skipped when the
leftover is empty, mirroring Python string truthiness), with any final
non-empty leftover appended whole as a last trimmed chunk. -/
def split_text (tk : List Char → ℕ) (text : List Char) (max_tokens : ℕ)
    (token_flexibility : ℚ) : List (List Char) :=
  let min_tokens : ℚ := (max_tokens : ℚ) * (1 - token_flexibility)
  let max_tokens_flex : ℚ := (max_tokens : ℚ) * (1 + token_flexibility)
  let s1 := try_split tk min_tokens max_tokens_flex titleSplitter text
  let s2 := if s1.2 = [] then (([] : List (List Char)), s1.2)
            else try_split tk min_tokens max_tokens_flex paraSplitter s1.2
  let s3 := if s2.2 = [] then (([] : List (List Char)), s2.2)
            else try_split tk min_tokens max_tokens_flex sentSplitter s2.2
  s1.1 ++ s2.1 ++ s3.1 ++ (if s3.2 = [] then [] else [pyStrip s3.2])

/-- An entry of the JSON-lines error log written by `log_error_as_json`
(`markdown_translate.py` lines 22-43): one record per failed completion
attempt.  The parallel human-readable `logging.error` line carries the same
id and error text, so one list models both logs. -/
structure ErrorRecord where
  errorId : String
  prompt : String
  systemMessage : String
  resultFormat : String
  errorText : String
deriving DecidableEq, Repr

/-- An entry of `detailed_error_log.json` written by `log_detailed_error`
(lines 46-68); `process_chunk` passes the chunk text as the prompt field and
empty strings for the system message and result format. -/
structure DetailedRecord where
  errorId : String
  prompt : List Char
  systemMessage : String
  resultFormat : String
  errorText : String
  retries : ℕ
deriving DecidableEq, Repr

/-- Python values the gateway distinguishes: strings, dicts (modelled as
association lists with the first binding winning, like a dict lookup), and
anything else (numbers, lists, ...), which the branch logic treats
uniformly. -/
inductive PyVal where
  | str : String → PyVal
  | dict : List (String × PyVal) → PyVal
  | other : PyVal

/-- Outcome of one `client_qwen` call run in the executor: it may raise, it
may return `None` (which `get_completion` converts into a raised
`ValueError("client_qwen 返回 None")`), or it may return a
`(response, token_count)` pair. -/
inductive ClientResult where
  | raised : String → ClientResult
  | retNone : ClientResult
  | ok : PyVal → ℕ → ClientResult

/-- Python dict membership / lookup for the modelled dicts. -/
def lookupKey : List (String × PyVal) → String → Option PyVal
  | [], _ => none
  | (k, v) :: rest, key => if k = key then some v else lookupKey rest key

/-- The error sentinel string returned by both `get_completion` (line 134)
and `process_chunk` (line 494): a fixed-format placeholder embedding an
error identifier. -/
def sentinel (uid : String) : String :=
  "\n\n未成功获取LLM结果 - 错误ID: " ++ uid ++ "\n\n"

/-- Lines 103-111 of `get_completion`: under the `message` result format a
textual response is tentatively JSON-parsed; a parse failure is swallowed
and the raw string kept.  The external `json.loads` is modelled by the
parameter `jparse` (`none` = `JSONDecodeError`). -/
def jsonLoadsStep (jparse : String → Option PyVal) (result_format : String)
    (response : PyVal) : PyVal :=
  if result_format = "message" then
    match response with
    | .str s =>
      match jparse s with
      | some v => v
      | none => .str s
    | _ => response
  else response

/-- Does the response hold a `translate` field (the source's
`isinstance(response, dict) and 'translate' in response`)? -/
def hasTranslate : PyVal → Bool
  | .dict d => (lookupKey d "translate").isSome
  | _ => false

/-- The `translate` field of a dict response (only read under
`hasTranslate`). -/
def translateField : PyVal → PyVal
  | .dict d => (lookupKey d "translate").getD .other
  | _ => .other

/-- Lines 113-121 of `get_completion`: return the `translate` field when the
response is a dict containing it under the `message` format; otherwise
return the response unchanged (both the `text` branch and the diagnostic
fallback branch return `response`). -/
def responseBranch (result_format : String) (response : PyVal) : PyVal :=
  if hasTranslate response = true ∧ result_format = "message" then
    translateField response
  else if result_format = "text" then response
  else response

/-- The ErrorRecord written for a failed attempt whose client outcome is
given: a raise logs `str(e)`, a `None` result logs the `ValueError` text. -/
def failRecord (prompt system_message result_format uid : String) :
    ClientResult → ErrorRecord
  | .raised e => ⟨uid, prompt, system_message, result_format, e⟩
  | .retNone => ⟨uid, prompt, system_message, result_format, "client_qwen 返回 None"⟩
  | .ok _ _ => ⟨uid, prompt, system_message, result_format, ""⟩

/-- The retry loop of `get_completion` (lines 88-134).  `client k` is the
outcome of attempt `k`; `uuidGen k` the value of the `uuid.uuid4()` call made
when attempt `k` fails (with `uuidGen retries` also serving line 132's fresh
id when no attempt ever ran).  Returns the final value together with the
JSON-lines error log entries written.  The `await asyncio.sleep(5)` between
attempts has no observable effect in this model. -/
def get_completion_go (client : ℕ → ClientResult) (uuidGen : ℕ → String)
    (jparse : String → Option PyVal)
    (prompt system_message result_format : String) (max_retries : ℕ)
    (retries : ℕ) (lastId : Option String) (log : List ErrorRecord) :
    PyVal × List ErrorRecord :=
  if h : retries < max_retries then
    match client retries with
    | .ok response _token_count =>
      let response := jsonLoadsStep jparse result_format response
      (responseBranch result_format response, log)
    | .raised e =>
      let uid := uuidGen retries
      get_completion_go client uuidGen jparse prompt system_message
        result_format max_retries (retries + 1) (some uid)
        (log ++ [⟨uid, prompt, system_message, result_format, e⟩])
    | .retNone =>
      let uid := uuidGen retries
      get_completion_go client uuidGen jparse prompt system_message
        result_format max_retries (retries + 1) (some uid)
        (log ++ [⟨uid, prompt, system_message, result_format, "client_qwen 返回 None"⟩])
  else
    (.str (sentinel (lastId.getD (uuidGen retries))), log)
termination_by max_retries - retries

/-- `get_completion(prompt, system_message, model, result_format,
max_retries)`: the loop starts with `retries = 0`, `unique_id = None` and an
empty error log. -/
def get_completion (client : ℕ → ClientResult) (uuidGen : ℕ → String)
    (jparse : String → Option PyVal)
    (prompt system_message result_format : String) (max_retries : ℕ) :
    PyVal × List ErrorRecord :=
  get_completion_go client uuidGen jparse prompt system_message result_format
    max_retries 0 none []

/-- Observable outcome of one `process_chunk` run: the returned string, the
`failed_chunks` entries it appended, the `detailed_error_log.json` records it
wrote, and how many times the guarded translate-improve body ran. -/
structure ChunkOutcome where
  result : String
  failed : List (ℕ × List Char)
  detailed : List DetailedRecord
  attempts : ℕ
deriving DecidableEq, Repr

/-- `process_chunk(chunk, index, retries)` (lines 466-496).  `body r` is the
outcome of the guarded two-call translate-improve section on the attempt with
retry counter `r`: `.ok s` when both gateway calls return (yielding the
improved translation `s`, which is itself a sentinel when the gateway
exhausted its own retries), `.error e` when the awaited section raises a
pipeline-level exception.  `uid` is the `uuid.uuid4()` value drawn at
exhaustion.  On an exception with `retries >= 5` it logs a detailed record
(carrying the chunk as prompt, empty system message and format, and the retry
count), registers `(index, chunk)` as failed, and returns the sentinel;
otherwise it recurses with `retries + 1`. -/
def process_chunk (body : ℕ → Except String String) (uid : String)
    (chunk : List Char) (index : ℕ) (retries : ℕ) : ChunkOutcome :=
  match body retries with
  | .ok improved_translation => ⟨improved_translation, [], [], 1⟩
  | .error e =>
    if 5 ≤ retries then
      ⟨sentinel uid, [(index, chunk)], [⟨uid, chunk, "", "", e, retries⟩], 1⟩
    else
      let r := process_chunk body uid chunk index (retries + 1)
      ⟨r.result, r.failed, r.detailed, r.attempts + 1⟩
termination_by 5 - retries
decreasing_by
  simp_wf
  omega

/-- Observable outcome of one `translate_markdown` run: the returned string,
the trace of first-pass and retry-pass `process_chunk` dispatches, the state
of `failed_chunks` after the first pass and at the end, whether the retry
pass ran, and whether the text was segmented. -/
structure TMResult where
  output : String
  firstCalls : List (ℕ × List Char)
  retryCalls : List (ℕ × List Char)
  failedAfterFirst : List (ℕ × List Char)
  failedFinal : List (ℕ × List Char)
  retryPassRun : Bool
  segmented : Bool

def defaultChunkOutcome : ChunkOutcome := ⟨"", [], [], 0⟩

/-- The `failed_chunks` appends produced by a gather pass: each task appends
its (at most one) failure entry when it completes, so the shared list grows
in task *completion* order `σ`, not dispatch order. -/
def completionOrderJoin (outs : List ChunkOutcome) (σ : List ℕ) :
    List (ℕ × List Char) :=
  (σ.map (fun j => (outs.getD j defaultChunkOutcome).failed)).flatten

/-- `TOKENS_PER_CHUNK` (line 16), the default `max_tokens`. -/
def TOKENS_PER_CHUNK : ℕ := 800

/-- `translate_markdown` (lines 437-516).  The oracles `body1`/`body2` give
the guarded-section outcome of the chunk at a given index on the first pass
resp. the retry pass (argument order: index, then retry counter), and
`uid1`/`uid2` the uuid drawn at that chunk's exhaustion.  `σ1`/`σ2` are the
completion orders of the two `asyncio.gather` passes (permutations of the
task positions); `gather` itself returns results in dispatch order.  If the
text's token count is below `max_tokens` the whole text is processed as one
chunk at index 0 and the pipeline result returned directly; otherwise the
text is segmented with the default flexibility 0.5, every chunk is
dispatched, and if any chunk registered as failed, one retry pass is run over
the `failed_chunks` snapshot, with each retry result written back at the
chunk's original index (`zip` truncates at the retry-result count, so entries
appended *during* the retry pass are paired with nothing). -/
def translate_markdown (tk : List Char → ℕ)
    (body1 body2 : ℕ → ℕ → Except String String)
    (uid1 uid2 : ℕ → String) (σ1 σ2 : List ℕ)
    (source_text : List Char) (max_tokens : ℕ) : TMResult :=
  if tk source_text < max_tokens then
    let r := process_chunk (body1 0) (uid1 0) source_text 0 0
    ⟨r.result, [(0, source_text)], [], r.failed, r.failed, false, false⟩
  else
    let source_text_chunks := split_text tk source_text max_tokens (1/2)
    let outcomes := source_text_chunks.enum.map
      (fun ic => process_chunk (body1 ic.1) (uid1 ic.1) ic.2 ic.1 0)
    let translated_chunks := outcomes.map (·.result)
    let failed_chunks := completionOrderJoin outcomes σ1
    if failed_chunks = [] then
      ⟨String.intercalate "\n\n" translated_chunks, source_text_chunks.enum,
        [], [], [], false, true⟩
    else
      let retryOutcomes := failed_chunks.map
        (fun ic => process_chunk (body2 ic.1) (uid2 ic.1) ic.2 ic.1 0)
      let retry_results := retryOutcomes.map (·.result)
      let failedGrown := failed_chunks ++ completionOrderJoin retryOutcomes σ2
      let final_chunks := (failedGrown.zip retry_results).foldl
        (fun acc p => acc.set p.1.1 p.2) translated_chunks
      ⟨String.intercalate "\n\n" final_chunks, source_text_chunks.enum,
        failed_chunks, failed_chunks, failedGrown, true, true⟩

/-- `WsJoin chunks s` states that `s` is exactly the chunks in order,
interleaved with (possibly empty) runs of whitespace before, between and
after them: reconstructing `s` from the chunks requires only reinstating
joining whitespace, so no character is lost or duplicated up to whitespace
at the chunk boundaries. -/
inductive WsJoin : List (List Char) → List Char → Prop
  | nil (w : List Char) (hw : ∀ c ∈ w, isPySpace c = true) : WsJoin [] w
  | cons (w c : List Char) (hw : ∀ x ∈ w, isPySpace x = true)
      (rest : List (List Char)) (tail : List Char) (h : WsJoin rest tail) :
      WsJoin (c :: rest) (w ++ c ++ tail)

/-- Erase all whitespace characters from a text. -/
def dropWs (s : List Char) : List Char := s.filter (fun c => !(isPySpace c))

/-- The result of a `process_chunk` run is either the improved translation
returned by some attempt of its guarded body, or the fixed error placeholder
built from the uuid drawn at exhaustion. -/
def PipeOutcome (body : ℕ → Except String String) (uid : String)
    (s : String) : Prop :=
  (∃ k, body k = Except.ok s) ∨ s = sentinel uid

/-- Where a task of the concurrency model stands with respect to the
semaphore and its current guarded LLM call. -/
inductive TPhase where
  | idle : TPhase
  | holding : TPhase
  | calling : TPhase
  | held : TPhase
deriving DecidableEq, Repr

/-- One cooperative task: how many guarded gateway sections it still has to
run (`process_chunk` runs two per attempt — translate then improve — and
more across its retries), and its current phase. -/
structure TaskSt where
  secs : ℕ
  ph : TPhase
deriving DecidableEq, Repr

/-- The scheduler state: the semaphore's current counter and the tasks. -/
structure SemSys where
  sem : ℕ
  tasks : List TaskSt
deriving DecidableEq, Repr

/-- Initial state of a `translate_markdown` run: the semaphore is created
with value `limit` (`Semaphore(semaphore_limit)`, line 460) and every task is
outside any guarded section. -/
def semStart (limit : ℕ) (progs : List ℕ) : SemSys :=
  ⟨limit, progs.map (fun n => ⟨n, .idle⟩)⟩

/-- Interleaving semantics of `run_with_semaphore` (lines 421-433).  A task
entering a guarded section must first decrement the semaphore (`async with
semaphore` suspends while the counter is zero); it then starts its LLM call;
the call either completes or raises (both end the call: `finish`); leaving
the scoped section increments the semaphore unconditionally — `async with`
runs the semaphore's `__aexit__` also when `await coro` raised, which is the
no-leak-on-exception behaviour under verification. -/
inductive SemStep : SemSys → SemSys → Prop
  | acquire (s : SemSys) (i : ℕ) (t : TaskSt) (ht : s.tasks.get? i = some t)
      (hph : t.ph = .idle) (hsec : 0 < t.secs) (hsem : 0 < s.sem) :
      SemStep s ⟨s.sem - 1, s.tasks.set i ⟨t.secs, .holding⟩⟩
  | start (s : SemSys) (i : ℕ) (t : TaskSt) (ht : s.tasks.get? i = some t)
      (hph : t.ph = .holding) :
      SemStep s ⟨s.sem, s.tasks.set i ⟨t.secs, .calling⟩⟩
  | finish (s : SemSys) (i : ℕ) (t : TaskSt) (ht : s.tasks.get? i = some t)
      (hph : t.ph = .calling) :
      SemStep s ⟨s.sem, s.tasks.set i ⟨t.secs, .held⟩⟩
  | release (s : SemSys) (i : ℕ) (t : TaskSt) (ht : s.tasks.get? i = some t)
      (hph : t.ph = .held) :
      SemStep s ⟨s.sem + 1, s.tasks.set i ⟨t.secs - 1, .idle⟩⟩

/-- Reachability under any interleaving of the cooperative scheduler. -/
def SemReach : SemSys → SemSys → Prop := Relation.ReflTransGen SemStep

/-- Number of tasks whose LLM call is in flight at this instant. -/
def callsInFlight (s : SemSys) : ℕ :=
  s.tasks.countP (fun t => t.ph = TPhase.calling)

/-- Number of tasks currently inside a guarded section (holding semaphore
capacity). -/
def holdingCount (s : SemSys) : ℕ :=
  s.tasks.countP (fun t => !(t.ph = TPhase.idle))

/-- The chunk dispatched at index `i` in the segmented path (the default
flexibility 0.5 is the one `translate_markdown` passes). -/
def chunkAt (tk : List Char → ℕ) (text : List Char) (max_tokens : ℕ)
    (i : ℕ) : List Char :=
  (split_text tk text max_tokens (1/2)).getD i []

/-- The pipeline outcome of the chunk at index `i` under a pass's body and
uuid oracles: the `process_chunk` run the orchestrator dispatches for it. -/
def passOutcome (body : ℕ → ℕ → Except String String) (uid : ℕ → String)
    (tk : List Char → ℕ) (text : List Char) (max_tokens : ℕ)
    (i : ℕ) : ChunkOutcome :=
  process_chunk (body i) (uid i) (chunkAt tk text max_tokens i) i 0

theorem get_completion_go_allfail (client : ℕ → ClientResult)
    (uuidGen : ℕ → String) (jparse : String → Option PyVal)
    (prompt system_message result_format : String) (max_retries : ℕ)
    (hfail : ∀ k, k < max_retries → ∀ v t, client k ≠ ClientResult.ok v t) :
    ∀ n retries lastId log, max_retries - retries = n →
    get_completion_go client uuidGen jparse prompt system_message
        result_format max_retries retries lastId log =
      (.str (sentinel (if retries < max_retries then uuidGen (max_retries - 1)
                       else lastId.getD (uuidGen retries))),
       log ++ (List.range' retries (max_retries - retries)).map
         (fun k => failRecord prompt system_message result_format (uuidGen k) (client k))) := by
  intro n
  induction n with
  | zero =>
    intro retries lastId log hn
    rw [get_completion_go]
    have hge : ¬ retries < max_retries := by omega
    simp [hge, hn]
  | succ n ih =>
    intro retries lastId log hn
    have hlt : retries < max_retries := by omega
    have hr : max_retries - retries = (max_retries - (retries + 1)) + 1 := by omega
    rw [get_completion_go, dif_pos hlt]
    rcases hck : client retries with e | _ | ⟨v, t⟩
    · dsimp only
      rw [ih (retries + 1) _ _ (by omega), hr, List.range'_succ, List.map_cons, hck]
      by_cases hlt2 : retries + 1 < max_retries
      · simp [hlt2, hlt, failRecord]
      · have he2 : max_retries - 1 = retries := by omega
        simp [hlt2, hlt, failRecord, he2]
    · dsimp only
      rw [ih (retries + 1) _ _ (by omega), hr, List.range'_succ, List.map_cons, hck]
      by_cases hlt2 : retries + 1 < max_retries
      · simp [hlt2, hlt, failRecord]
      · have he2 : max_retries - 1 = retries := by omega
        simp [hlt2, hlt, failRecord, he2]
    · exact absurd hck (hfail retries hlt v t)

/-- C3: when every attempted `client_qwen` call raises or returns no result,
`get_completion` does not propagate any exception: it returns the single
sentinel string embedding the error identifier generated on the last failed
attempt (or a fresh one when `max_retries = 0` allowed no attempt at all),
and its JSON-lines error log holds exactly `max_retries` records, the k-th
one carrying attempt k's identifier and error text. -/
theorem get_completion_allfail_sentinel (client : ℕ → ClientResult)
    (uuidGen : ℕ → String) (jparse : String → Option PyVal)
    (prompt system_message result_format : String) (max_retries : ℕ)
    (hfail : ∀ k, k < max_retries → ∀ v t, client k ≠ ClientResult.ok v t) :
    (get_completion client uuidGen jparse prompt system_message result_format
        max_retries).2 =
      (List.range max_retries).map
        (fun k => failRecord prompt system_message result_format (uuidGen k) (client k)) ∧
    (get_completion client uuidGen jparse prompt system_message result_format
        max_retries).2.length = max_retries ∧
    (0 < max_retries →
      (get_completion client uuidGen jparse prompt system_message result_format
          max_retries).1 = .str (sentinel (uuidGen (max_retries - 1)))) ∧
    (max_retries = 0 →
      (get_completion client uuidGen jparse prompt system_message result_format
          max_retries).1 = .str (sentinel (uuidGen 0))) := by
  have h := get_completion_go_allfail client uuidGen jparse prompt
    system_message result_format max_retries hfail (max_retries - 0) 0 none [] rfl
  rw [get_completion, h]
  refine ⟨by simp [List.range_eq_range'], by simp [List.range_eq_range'], ?_, ?_⟩
  · intro hpos
    simp [Nat.pos_iff_ne_zero.mp hpos, show 0 < max_retries from hpos]
  · intro h0
    simp [h0]

theorem get_completion_allfail_sentinel_witness :
    (∀ k, k < 5 → ∀ v t, (fun _ : ℕ => ClientResult.raised "boom") k ≠ ClientResult.ok v t) ∧
    (get_completion (fun _ => ClientResult.raised "boom") (fun k => toString k)
        (fun _ => none) "p" "sys" "message" 5).2 =
      (List.range 5).map
        (fun k => failRecord "p" "sys" "message" (toString k)
          ((fun _ : ℕ => ClientResult.raised "boom") k)) ∧
    (get_completion (fun _ => ClientResult.raised "boom") (fun k => toString k)
        (fun _ => none) "p" "sys" "message" 5).2.length = 5 ∧
    (get_completion (fun _ => ClientResult.raised "boom") (fun k => toString k)
        (fun _ => none) "p" "sys" "message" 5).1 = .str (sentinel (toString 4)) := by
  have hf : ∀ k, k < 5 → ∀ v t,
      (fun _ : ℕ => ClientResult.raised "boom") k ≠ ClientResult.ok v t := by
    intro k _ v t h
    exact ClientResult.noConfusion h
  have h := get_completion_allfail_sentinel (fun _ => ClientResult.raised "boom")
    (fun k => toString k) (fun _ => none) "p" "sys" "message" 5 hf
  exact ⟨hf, h.1, h.2.1, h.2.2.1 (by omega)⟩

/-- C8: under the structured-message format, a string response that fails to
parse as JSON is returned unchanged with no retry and no error record (the
parse failure neither raises nor counts as a failed attempt); a response
that is a mapping with key `translate`, or a string that parses to one,
yields that field's value; under the plain-text format the raw response is
returned unchanged. -/
theorem get_completion_response_parsing :
    (∀ (client : ℕ → ClientResult) (uuidGen : ℕ → String)
       (jparse : String → Option PyVal) (prompt system_message : String)
       (max_retries : ℕ) (s : String) (tok : ℕ),
      0 < max_retries → client 0 = ClientResult.ok (.str s) tok →
      jparse s = none →
      get_completion client uuidGen jparse prompt system_message "message"
        max_retries = (.str s, [])) ∧
    (∀ (client : ℕ → ClientResult) (uuidGen : ℕ → String)
       (jparse : String → Option PyVal) (prompt system_message : String)
       (max_retries : ℕ) (d : List (String × PyVal)) (v : PyVal) (tok : ℕ),
      0 < max_retries → client 0 = ClientResult.ok (.dict d) tok →
      lookupKey d "translate" = some v →
      get_completion client uuidGen jparse prompt system_message "message"
        max_retries = (v, [])) ∧
    (∀ (client : ℕ → ClientResult) (uuidGen : ℕ → String)
       (jparse : String → Option PyVal) (prompt system_message : String)
       (max_retries : ℕ) (s : String) (d : List (String × PyVal)) (v : PyVal)
       (tok : ℕ),
      0 < max_retries → client 0 = ClientResult.ok (.str s) tok →
      jparse s = some (.dict d) → lookupKey d "translate" = some v →
      get_completion client uuidGen jparse prompt system_message "message"
        max_retries = (v, [])) ∧
    (∀ (client : ℕ → ClientResult) (uuidGen : ℕ → String)
       (jparse : String → Option PyVal) (prompt system_message : String)
       (max_retries : ℕ) (resp : PyVal) (tok : ℕ),
      0 < max_retries → client 0 = ClientResult.ok resp tok →
      get_completion client uuidGen jparse prompt system_message "text"
        max_retries = (resp, [])) := by
  refine ⟨?_, ?_, ?_, ?_⟩
  · intro client uuidGen jparse prompt system_message max_retries s tok h0 hck hj
    rw [get_completion, get_completion_go, dif_pos h0, hck]
    dsimp only
    simp [jsonLoadsStep, hj, responseBranch, hasTranslate]
  · intro client uuidGen jparse prompt system_message max_retries d v tok h0 hck hl
    rw [get_completion, get_completion_go, dif_pos h0, hck]
    dsimp only
    simp [jsonLoadsStep, responseBranch, hasTranslate, hl, translateField]
  · intro client uuidGen jparse prompt system_message max_retries s d v tok h0 hck hj hl
    rw [get_completion, get_completion_go, dif_pos h0, hck]
    dsimp only
    simp [jsonLoadsStep, hj, responseBranch, hasTranslate, hl, translateField]
  · intro client uuidGen jparse prompt system_message max_retries resp tok h0 hck
    rw [get_completion, get_completion_go, dif_pos h0, hck]
    dsimp only
    have ht : ("text" : String) ≠ "message" := by decide
    cases resp with
    | str s => simp [jsonLoadsStep, responseBranch, hasTranslate]
    | dict d =>
      simp only [jsonLoadsStep, responseBranch]
      simp [ht]
    | other => simp [jsonLoadsStep, responseBranch, hasTranslate]

theorem get_completion_response_parsing_witness :
    ((fun _ : ℕ => ClientResult.ok (.str "notjson") 3) 0 =
        ClientResult.ok (.str "notjson") 3 ∧
      get_completion (fun _ => ClientResult.ok (.str "notjson") 3)
        (fun _ => "u") (fun _ => none) "p" "s" "message" 5 =
        (.str "notjson", [])) ∧
    (lookupKey [("translate", PyVal.str "hello")] "translate" =
        some (.str "hello") ∧
      get_completion
        (fun _ => ClientResult.ok (.dict [("translate", PyVal.str "hello")]) 3)
        (fun _ => "u") (fun _ => none) "p" "s" "message" 5 =
        (.str "hello", [])) ∧
    (get_completion (fun _ => ClientResult.ok (.str "{j}") 3) (fun _ => "u")
        (fun _ => some (.dict [("translate", PyVal.str "hi")])) "p" "s"
        "message" 5 = (.str "hi", [])) ∧
    (get_completion (fun _ => ClientResult.ok .other 3) (fun _ => "u")
        (fun _ => none) "p" "s" "text" 5 = (.other, [])) := by
  refine ⟨⟨rfl, ?_⟩, ⟨?_, ?_⟩, ?_, ?_⟩
  · exact get_completion_response_parsing.1 _ _ _ _ _ _ _ _ (by omega) rfl rfl
  · simp [lookupKey]
  · exact get_completion_response_parsing.2.1 _ _ _ _ _ _ _ _ _ (by omega) rfl
      (by simp [lookupKey])
  · exact get_completion_response_parsing.2.2.1 _ _ _ _ _ _ _ _ _ _ (by omega)
      rfl rfl (by simp [lookupKey])
  · exact get_completion_response_parsing.2.2.2 _ _ _ _ _ _ _ _ (by omega) rfl

theorem process_chunk_allfail (body : ℕ → Except String String) (uid : String)
    (chunk : List Char) (index : ℕ) (es : ℕ → String)
    (hfail : ∀ k, k ≤ 5 → body k = Except.error (es k)) :
    ∀ n r, r ≤ 5 → 5 - r = n →
    process_chunk body uid chunk index r =
      ⟨sentinel uid, [(index, chunk)], [⟨uid, chunk, "", "", es 5, 5⟩], 6 - r⟩ := by
  intro n
  induction n with
  | zero =>
    intro r hr hn
    have h5 : r = 5 := by omega
    subst h5
    rw [process_chunk, hfail 5 (le_refl 5)]
    simp
  | succ n ih =>
    intro r hr hn
    have hlt : r < 5 := by omega
    rw [process_chunk, hfail r (by omega)]
    dsimp only
    rw [if_neg (by omega), ih (r + 1) (by omega) (by omega)]
    have h6 : 5 - r + 1 = 6 - r := by omega
    simp [h6]

theorem process_chunk_outcome (body : ℕ → Except String String) (uid : String)
    (chunk : List Char) (index : ℕ) :
    ∀ n r, 5 - r = n →
    PipeOutcome body uid (process_chunk body uid chunk index r).result := by
  intro n
  induction n with
  | zero =>
    intro r hn
    rw [process_chunk]
    rcases hb : body r with e | s
    · dsimp only
      rw [if_pos (by omega)]
      exact Or.inr rfl
    · exact Or.inl ⟨r, hb⟩
  | succ n ih =>
    intro r hn
    rw [process_chunk]
    rcases hb : body r with e | s
    · dsimp only
      by_cases h5 : 5 ≤ r
      · rw [if_pos h5]
        exact Or.inr rfl
      · rw [if_neg h5]
        exact ih (r + 1) (by omega)
    · exact Or.inl ⟨r, hb⟩

theorem process_chunk_failed_cases (body : ℕ → Except String String)
    (uid : String) (chunk : List Char) (index : ℕ) :
    ∀ n r, 5 - r = n →
    (process_chunk body uid chunk index r).failed = [] ∨
    (process_chunk body uid chunk index r).failed = [(index, chunk)] := by
  intro n
  induction n with
  | zero =>
    intro r hn
    rw [process_chunk]
    rcases hb : body r with e | s
    · dsimp only
      rw [if_pos (by omega)]
      exact Or.inr rfl
    · exact Or.inl rfl
  | succ n ih =>
    intro r hn
    rw [process_chunk]
    rcases hb : body r with e | s
    · dsimp only
      by_cases h5 : 5 ≤ r
      · rw [if_pos h5]
        exact Or.inr rfl
      · rw [if_neg h5]
        exact ih (r + 1) (by omega)
    · exact Or.inl rfl

/-- C4 as stated is false at a concrete input: with a guarded body that
raises on every attempt, `process_chunk(chunk, 0, 0)` runs its
translate-improve body six times — the initial attempt plus five recursive
retries — so the recursion does not stop within "5 total attempts". -/
theorem process_chunk_six_attempts :
    (process_chunk (fun _ => Except.error "boom") "u" ['a'] 0 0).attempts = 6 ∧
    ¬ (process_chunk (fun _ => Except.error "boom") "u" ['a'] 0 0).attempts ≤ 5 := by
  have h := process_chunk_allfail (fun _ => Except.error "boom") "u" ['a'] 0
    (fun _ => "boom") (fun _ _ => rfl) 5 0 (by omega) rfl
  rw [h]
  refine ⟨rfl, ?_⟩
  dsimp only
  omega

/-- C4 (amended: the retry ceiling admits six total attempts, the initial
one plus five recursive retries, since the code recurses whenever
`retries < 5` and gives up only when an attempt with `retries >= 5` fails):
a pipeline-level exception makes `process_chunk` recurse with `retryCount+1`;
at exhaustion it writes one detailed ErrorRecord carrying the retry count 5
and the last error, registers `(index, chunkText)` into `failed_chunks`, and
returns the error placeholder string embedding the freshly generated
identifier instead of raising. -/
theorem process_chunk_retry_exhaustion (body : ℕ → Except String String)
    (uid : String) (chunk : List Char) (index : ℕ) (es : ℕ → String)
    (hfail : ∀ k, k ≤ 5 → body k = Except.error (es k)) :
    process_chunk body uid chunk index 0 =
      ⟨sentinel uid, [(index, chunk)], [⟨uid, chunk, "", "", es 5, 5⟩], 6⟩ ∧
    (∀ r e, r < 5 → body r = Except.error e →
      process_chunk body uid chunk index r =
        ⟨(process_chunk body uid chunk index (r + 1)).result,
         (process_chunk body uid chunk index (r + 1)).failed,
         (process_chunk body uid chunk index (r + 1)).detailed,
         (process_chunk body uid chunk index (r + 1)).attempts + 1⟩) := by
  constructor
  · exact process_chunk_allfail body uid chunk index es hfail 5 0 (by omega) rfl
  · intro r e hr hb
    conv_lhs => rw [process_chunk]
    rw [hb]
    dsimp only
    rw [if_neg (by omega)]

theorem process_chunk_retry_exhaustion_witness :
    ((∀ k, k ≤ 5 → (fun _ : ℕ => (Except.error "x" : Except String String)) k =
        Except.error ((fun _ : ℕ => "x") k)) ∧
      process_chunk (fun _ => Except.error "x") "u" ['a'] 3 0 =
        ⟨sentinel "u", [(3, ['a'])], [⟨"u", ['a'], "", "", "x", 5⟩], 6⟩) ∧
    process_chunk (fun _ => Except.error "x") "u" ['a'] 3 0 =
      ⟨(process_chunk (fun _ => Except.error "x") "u" ['a'] 3 1).result,
       (process_chunk (fun _ => Except.error "x") "u" ['a'] 3 1).failed,
       (process_chunk (fun _ => Except.error "x") "u" ['a'] 3 1).detailed,
       (process_chunk (fun _ => Except.error "x") "u" ['a'] 3 1).attempts + 1⟩ := by
  have h := process_chunk_retry_exhaustion (fun _ => Except.error "x") "u"
    ['a'] 3 (fun _ => "x") (fun _ _ => rfl)
  exact ⟨⟨fun _ _ => rfl, h.1⟩, h.2 0 "x" (by omega) rfl⟩

/-- C6: when the whole input's token count is strictly below `max_tokens`,
`translate_markdown` performs no segmentation and dispatches exactly one
pipeline call, on the whole text at index 0, returning that call's result
directly. -/
theorem translate_markdown_single_chunk (tk : List Char → ℕ)
    (body1 body2 : ℕ → ℕ → Except String String) (uid1 uid2 : ℕ → String)
    (σ1 σ2 : List ℕ) (source_text : List Char) (max_tokens : ℕ)
    (h : tk source_text < max_tokens) :
    (translate_markdown tk body1 body2 uid1 uid2 σ1 σ2 source_text
        max_tokens).segmented = false ∧
    (translate_markdown tk body1 body2 uid1 uid2 σ1 σ2 source_text
        max_tokens).firstCalls = [(0, source_text)] ∧
    (translate_markdown tk body1 body2 uid1 uid2 σ1 σ2 source_text
        max_tokens).retryCalls = [] ∧
    (translate_markdown tk body1 body2 uid1 uid2 σ1 σ2 source_text
        max_tokens).retryPassRun = false ∧
    (translate_markdown tk body1 body2 uid1 uid2 σ1 σ2 source_text
        max_tokens).output =
      (process_chunk (body1 0) (uid1 0) source_text 0 0).result := by
  simp [translate_markdown, h]

theorem translate_markdown_single_chunk_witness :
    (List.length ['h', 'i'] < 800) ∧
    (translate_markdown List.length (fun _ _ => Except.ok "done")
        (fun _ _ => Except.ok "done") (fun _ => "u") (fun _ => "u") [] []
        ['h', 'i'] 800).segmented = false ∧
    (translate_markdown List.length (fun _ _ => Except.ok "done")
        (fun _ _ => Except.ok "done") (fun _ => "u") (fun _ => "u") [] []
        ['h', 'i'] 800).firstCalls = [(0, ['h', 'i'])] ∧
    (translate_markdown List.length (fun _ _ => Except.ok "done")
        (fun _ _ => Except.ok "done") (fun _ => "u") (fun _ => "u") [] []
        ['h', 'i'] 800).output =
      (process_chunk ((fun _ : ℕ => fun _ : ℕ => (Except.ok "done" : Except String String)) 0)
        ((fun _ : ℕ => "u") 0) ['h', 'i'] 0 0).result := by
  have h := translate_markdown_single_chunk List.length
    (fun _ _ => Except.ok "done") (fun _ _ => Except.ok "done") (fun _ => "u")
    (fun _ => "u") [] [] ['h', 'i'] 800 (by simp)
  exact ⟨by simp, h.1, h.2.1, h.2.2.2.2⟩

/-- C10: in the unsegmented path (token count strictly below `max_tokens`),
when the single `process_chunk` call exhausts its local retries,
`translate_markdown` returns the failure placeholder directly: the chunk is
registered in `failed_chunks`, but no orchestrator-level retry pass runs over
it, because the retry pass exists only in the segmented branch. -/
theorem translate_markdown_single_failure (tk : List Char → ℕ)
    (body1 body2 : ℕ → ℕ → Except String String) (uid1 uid2 : ℕ → String)
    (σ1 σ2 : List ℕ) (source_text : List Char) (max_tokens : ℕ)
    (es : ℕ → String) (h : tk source_text < max_tokens)
    (hfail : ∀ k, k ≤ 5 → body1 0 k = Except.error (es k)) :
    (translate_markdown tk body1 body2 uid1 uid2 σ1 σ2 source_text
        max_tokens).output = sentinel (uid1 0) ∧
    (translate_markdown tk body1 body2 uid1 uid2 σ1 σ2 source_text
        max_tokens).failedFinal = [(0, source_text)] ∧
    (translate_markdown tk body1 body2 uid1 uid2 σ1 σ2 source_text
        max_tokens).retryPassRun = false ∧
    (translate_markdown tk body1 body2 uid1 uid2 σ1 σ2 source_text
        max_tokens).retryCalls = [] := by
  have hpc := process_chunk_allfail (body1 0) (uid1 0) source_text 0 es hfail
    5 0 (by omega) rfl
  simp [translate_markdown, h, hpc]

theorem translate_markdown_single_failure_witness :
    (List.length ['a'] < 10 ∧
      (∀ k, k ≤ 5 →
        (fun _ : ℕ => fun _ : ℕ => (Except.error "x" : Except String String)) 0 k =
          Except.error ((fun _ : ℕ => "x") k))) ∧
    (translate_markdown List.length (fun _ _ => Except.error "x")
        (fun _ _ => Except.ok "r") (fun _ => "uid0") (fun _ => "uid0") [0] []
        ['a'] 10).output = sentinel ((fun _ : ℕ => "uid0") 0) ∧
    (translate_markdown List.length (fun _ _ => Except.error "x")
        (fun _ _ => Except.ok "r") (fun _ => "uid0") (fun _ => "uid0") [0] []
        ['a'] 10).failedFinal = [(0, ['a'])] ∧
    (translate_markdown List.length (fun _ _ => Except.error "x")
        (fun _ _ => Except.ok "r") (fun _ => "uid0") (fun _ => "uid0") [0] []
        ['a'] 10).retryPassRun = false := by
  have h := translate_markdown_single_failure List.length
    (fun _ _ => Except.error "x") (fun _ _ => Except.ok "r") (fun _ => "uid0")
    (fun _ => "uid0") [0] [] ['a'] 10 (fun _ => "x") (by simp)
    (fun _ _ => rfl)
  exact ⟨⟨by simp, fun _ _ => rfl⟩, h.1, h.2.1, h.2.2.1⟩

/-- The semaphore's conservation invariant: counter plus tasks currently
inside a guarded section always equals the configured capacity. -/
def SemInv (limit : ℕ) (s : SemSys) : Prop :=
  s.sem + holdingCount s = limit

theorem holdingCount_set (l : List TaskSt) (i : ℕ) (t a : TaskSt)
    (ht : l.get? i = some t) :
    (l.set i a).countP (fun x => !(decide (x.ph = TPhase.idle))) +
      (if t.ph = TPhase.idle then 0 else 1) =
    l.countP (fun x => !(decide (x.ph = TPhase.idle))) +
      (if a.ph = TPhase.idle then 0 else 1) := by
  induction l generalizing i with
  | nil => simp at ht
  | cons x xs ih =>
    cases i with
    | zero =>
      simp only [List.get?_cons_zero, Option.some.injEq] at ht
      subst ht
      simp only [List.set_cons_zero, List.countP_cons]
      by_cases hx : x.ph = TPhase.idle <;> by_cases ha : a.ph = TPhase.idle <;>
        simp [hx, ha]
    | succ i =>
      simp only [List.get?_cons_succ] at ht
      have h := ih i ht
      simp only [List.set_cons_succ, List.countP_cons]
      by_cases hx : x.ph = TPhase.idle <;> simp [hx] <;> omega

theorem semStep_inv (limit : ℕ) (s s' : SemSys) (hstep : SemStep s s')
    (hinv : SemInv limit s) : SemInv limit s' := by
  cases hstep with
  | acquire i t ht hph hsec hsem =>
    have h := holdingCount_set s.tasks i t ⟨t.secs, .holding⟩ ht
    unfold SemInv holdingCount at *
    dsimp only at h ⊢
    rw [hph, if_pos rfl,
        if_neg (show ¬ TPhase.holding = TPhase.idle by decide)] at h
    omega
  | start i t ht hph =>
    have h := holdingCount_set s.tasks i t ⟨t.secs, .calling⟩ ht
    unfold SemInv holdingCount at *
    dsimp only at h ⊢
    rw [hph, if_neg (show ¬ TPhase.holding = TPhase.idle by decide),
        if_neg (show ¬ TPhase.calling = TPhase.idle by decide)] at h
    omega
  | finish i t ht hph =>
    have h := holdingCount_set s.tasks i t ⟨t.secs, .held⟩ ht
    unfold SemInv holdingCount at *
    dsimp only at h ⊢
    rw [hph, if_neg (show ¬ TPhase.calling = TPhase.idle by decide),
        if_neg (show ¬ TPhase.held = TPhase.idle by decide)] at h
    omega
  | release i t ht hph =>
    have h := holdingCount_set s.tasks i t ⟨t.secs - 1, .idle⟩ ht
    unfold SemInv holdingCount at *
    dsimp only at h ⊢
    rw [hph, if_neg (show ¬ TPhase.held = TPhase.idle by decide),
        if_pos rfl] at h
    omega

/-- C9: in every state reachable under any interleaving from the start of a
`translate_markdown` run, the number of LLM calls executing concurrently
never exceeds the semaphore capacity — a call runs only inside a guarded
section entered through `acquire` — and because `async with` releases the
acquired capacity unconditionally whether the guarded coroutine completed or
raised, a fully quiescent state (all tasks outside guarded sections) always
finds the semaphore restored to its full capacity: no capacity is leaked on
exceptions. -/
theorem semaphore_limits_concurrent_calls (limit : ℕ) (progs : List ℕ)
    (s : SemSys) (hreach : SemReach (semStart limit progs) s) :
    callsInFlight s ≤ limit ∧
    ((∀ t ∈ s.tasks, t.ph = TPhase.idle) → s.sem = limit) := by
  have hinv : SemInv limit s := by
    induction hreach with
    | refl =>
      unfold SemInv holdingCount semStart
      dsimp only
      rw [List.countP_eq_zero.mpr]
      · omega
      · intro t htmem
        obtain ⟨n, _, rfl⟩ := List.mem_map.mp htmem
        simp
    | tail _ step ih => exact semStep_inv _ _ _ step ih
  unfold SemInv at hinv
  constructor
  · have hmono : callsInFlight s ≤ holdingCount s := by
      unfold callsInFlight holdingCount
      refine List.countP_mono_left ?_
      intro t _ hp
      simp only [decide_eq_true_eq] at hp
      simp [hp]
    omega
  · intro hall
    have hz : holdingCount s = 0 := by
      unfold holdingCount
      rw [List.countP_eq_zero]
      intro t htmem
      simp [hall t htmem]
    omega

theorem semaphore_limits_concurrent_calls_witness :
    callsInFlight (semStart 2 [2, 2]) ≤ 2 ∧
    ((∀ t ∈ (semStart 2 [2, 2]).tasks, t.ph = TPhase.idle) →
      (semStart 2 [2, 2]).sem = 2) :=
  semaphore_limits_concurrent_calls 2 [2, 2] (semStart 2 [2, 2])
    Relation.ReflTransGen.refl

theorem reSplitGo_join (m : Splitter) :
    ∀ (n : ℕ) (s buf : List Char), s.length ≤ n →
    (reSplitGo m buf s).flatten = buf.reverse ++ s := by
  intro n
  induction n with
  | zero =>
    intro s buf h
    have hs : s = [] := List.length_eq_zero.mp (Nat.le_zero.mp h)
    subst hs
    rw [reSplitGo]
    simp
  | succ n ih =>
    intro s buf h
    cases s with
    | nil =>
      rw [reSplitGo]
      simp
    | cons c rest =>
      rw [reSplitGo]
      split
      · rename_i k heq
        have hk := m.pos _ _ heq
        have hlen : ((c :: rest).drop k).length ≤ n := by
          simp only [List.length_drop, List.length_cons]
          simp only [List.length_cons] at h
          omega
        simp only [List.flatten_cons]
        rw [ih _ [] hlen]
        simp [List.take_append_drop]
      · have hlen : rest.length ≤ n := by
          simp only [List.length_cons] at h
          omega
        rw [ih _ (c :: buf) hlen]
        simp

theorem reSplit_join (m : Splitter) (s : List Char) :
    (reSplit m s).flatten = s := by
  rw [reSplit, reSplitGo_join m s.length s [] (le_refl _)]
  simp

theorem try_split_go_spec (tk : List Char → ℕ) (minT maxT : ℚ) :
    ∀ (parts : List (List Char)) (acc : List Char),
    ∃ pieces : List (List Char),
      (try_split_go tk minT maxT parts acc).1 = pieces.map pyStrip ∧
      pieces.flatten ++ (try_split_go tk minT maxT parts acc).2 =
        acc ++ parts.flatten ∧
      ∀ p ∈ pieces, minT ≤ (tk p : ℚ) ∧ (tk p : ℚ) ≤ maxT := by
  intro parts
  induction parts with
  | nil =>
    intro acc
    refine ⟨[], ?_, ?_, ?_⟩ <;> simp [try_split_go]
  | cons part parts ih =>
    intro acc
    by_cases hw : minT ≤ (tk (acc ++ part) : ℚ) ∧ (tk (acc ++ part) : ℚ) ≤ maxT
    · obtain ⟨ps, h1, h2, h3⟩ := ih []
      refine ⟨(acc ++ part) :: ps, ?_, ?_, ?_⟩
      · simp only [try_split_go, if_pos hw]
        simp [h1]
      · simp only [try_split_go, if_pos hw]
        simp only [List.flatten_cons, List.append_assoc]
        rw [h2]
        simp
      · intro p hp
        rcases List.mem_cons.mp hp with h | h
        · subst h; exact hw
        · exact h3 p h
    · obtain ⟨ps, h1, h2, h3⟩ := ih (acc ++ part)
      refine ⟨ps, ?_, ?_, h3⟩
      · simp only [try_split_go, if_neg hw]
        exact h1
      · simp only [try_split_go, if_neg hw]
        rw [h2]
        simp

theorem try_split_spec (tk : List Char → ℕ) (minT maxT : ℚ) (m : Splitter)
    (chunk : List Char) :
    ∃ pieces : List (List Char),
      (try_split tk minT maxT m chunk).1 = pieces.map pyStrip ∧
      pieces.flatten ++ (try_split tk minT maxT m chunk).2 = chunk ∧
      ∀ p ∈ pieces, minT ≤ (tk p : ℚ) ∧ (tk p : ℚ) ≤ maxT := by
  obtain ⟨ps, h1, h2, h3⟩ := try_split_go_spec tk minT maxT (reSplit m chunk) []
  exact ⟨ps, h1, by rw [try_split, h2, List.nil_append, reSplit_join], h3⟩

theorem pyStrip_decomp (s : List Char) :
    ∃ w1 w2 : List Char,
      (∀ c ∈ w1, isPySpace c = true) ∧ (∀ c ∈ w2, isPySpace c = true) ∧
      s = w1 ++ pyStrip s ++ w2 := by
  refine ⟨s.takeWhile isPySpace,
    ((s.dropWhile isPySpace).reverse.takeWhile isPySpace).reverse, ?_, ?_, ?_⟩
  · intro c hc
    exact List.mem_takeWhile_imp hc
  · intro c hc
    exact List.mem_takeWhile_imp (List.mem_reverse.mp hc)
  · conv_lhs => rw [← List.takeWhile_append_dropWhile isPySpace s]
    rw [pyStrip, List.append_assoc]
    congr 1
    conv_lhs =>
      rw [← List.reverse_reverse (s.dropWhile isPySpace),
        ← List.takeWhile_append_dropWhile isPySpace
          (s.dropWhile isPySpace).reverse]
    rw [List.reverse_append]

theorem wsJoin_ws_prepend (w : List Char) (hw : ∀ c ∈ w, isPySpace c = true)
    (cs : List (List Char)) (t : List Char) (h : WsJoin cs t) :
    WsJoin cs (w ++ t) := by
  cases h with
  | nil w2 hw2 =>
    refine WsJoin.nil (w ++ t) ?_
    intro c hc
    rcases List.mem_append.mp hc with hm | hm
    · exact hw c hm
    · exact hw2 c hm
  | cons w2 c hw2 rest tail hrest =>
    have h2 := WsJoin.cons (w ++ w2) c
      (by
        intro x hx
        rcases List.mem_append.mp hx with hm | hm
        · exact hw x hm
        · exact hw2 x hm) rest tail hrest
    simpa [List.append_assoc] using h2

theorem wsJoin_append (cs : List (List Char)) (s : List Char)
    (h : WsJoin cs s) :
    ∀ ds t, WsJoin ds t → WsJoin (cs ++ ds) (s ++ t) := by
  induction h with
  | nil w hw =>
    intro ds t ht
    simpa using wsJoin_ws_prepend w hw ds t ht
  | cons w c hw rest tail hrest ih =>
    intro ds t ht
    have := WsJoin.cons w c hw (rest ++ ds) (tail ++ t) (ih ds t ht)
    simpa [List.append_assoc] using this

theorem wsJoin_single_strip (s : List Char) : WsJoin [pyStrip s] s := by
  obtain ⟨w1, w2, h1, h2, hs⟩ := pyStrip_decomp s
  have h := WsJoin.cons w1 (pyStrip s) h1 [] w2 (WsJoin.nil w2 h2)
  rw [← hs] at h
  exact h

theorem wsJoin_map_strip (pieces : List (List Char)) :
    WsJoin (pieces.map pyStrip) pieces.flatten := by
  induction pieces with
  | nil => exact WsJoin.nil [] (by simp)
  | cons p ps ih =>
    have := wsJoin_append [pyStrip p] p (wsJoin_single_strip p)
      (ps.map pyStrip) ps.flatten ih
    simpa using this

theorem wsJoin_filter (cs : List (List Char)) (s : List Char)
    (h : WsJoin cs s) :
    cs.flatten.filter (fun c => !(isPySpace c)) =
      s.filter (fun c => !(isPySpace c)) := by
  induction h with
  | nil w hw =>
    have : w.filter (fun c => !(isPySpace c)) = [] := by
      rw [List.filter_eq_nil]
      intro a ha
      simp [hw a ha]
    simp [this]
  | cons w c hw rest tail hrest ih =>
    have hwf : w.filter (fun c => !(isPySpace c)) = [] := by
      rw [List.filter_eq_nil]
      intro a ha
      simp [hw a ha]
    simp [List.filter_append, hwf, ih]

theorem split_text_decomp (tk : List Char → ℕ) (text : List Char)
    (max_tokens : ℕ) (flex : ℚ) :
    ∃ (committed : List (List Char)) (leftover : List Char),
      split_text tk text max_tokens flex =
        committed.map pyStrip ++
          (if leftover = [] then [] else [pyStrip leftover]) ∧
      committed.flatten ++ leftover = text ∧
      ∀ p ∈ committed,
        (max_tokens : ℚ) * (1 - flex) ≤ (tk p : ℚ) ∧
        (tk p : ℚ) ≤ (max_tokens : ℚ) * (1 + flex) := by
  obtain ⟨p1, h11, h12, h13⟩ := try_split_spec tk
    ((max_tokens : ℚ) * (1 - flex)) ((max_tokens : ℚ) * (1 + flex))
    titleSplitter text
  by_cases hc1 : (try_split tk ((max_tokens : ℚ) * (1 - flex))
      ((max_tokens : ℚ) * (1 + flex)) titleSplitter text).2 = []
  · refine ⟨p1, [], ?_, ?_, h13⟩
    · rw [split_text]
      simp only [hc1, if_pos rfl]
      simp [h11]
    · rw [hc1] at h12
      simpa using h12
  · obtain ⟨p2, h21, h22, h23⟩ := try_split_spec tk
      ((max_tokens : ℚ) * (1 - flex)) ((max_tokens : ℚ) * (1 + flex))
      paraSplitter (try_split tk ((max_tokens : ℚ) * (1 - flex))
        ((max_tokens : ℚ) * (1 + flex)) titleSplitter text).2
    by_cases hc2 : (try_split tk ((max_tokens : ℚ) * (1 - flex))
        ((max_tokens : ℚ) * (1 + flex)) paraSplitter
        (try_split tk ((max_tokens : ℚ) * (1 - flex))
          ((max_tokens : ℚ) * (1 + flex)) titleSplitter text).2).2 = []
    · refine ⟨p1 ++ p2, [], ?_, ?_, ?_⟩
      · rw [split_text]
        simp only [if_neg hc1, hc2, if_pos rfl]
        simp [h11, h21]
      · rw [hc2] at h22
        simp only [List.append_nil] at h22 ⊢
        rw [List.flatten_append, h22, h12]
      · intro p hp
        rcases List.mem_append.mp hp with h | h
        · exact h13 p h
        · exact h23 p h
    · obtain ⟨p3, h31, h32, h33⟩ := try_split_spec tk
        ((max_tokens : ℚ) * (1 - flex)) ((max_tokens : ℚ) * (1 + flex))
        sentSplitter (try_split tk ((max_tokens : ℚ) * (1 - flex))
          ((max_tokens : ℚ) * (1 + flex)) paraSplitter
          (try_split tk ((max_tokens : ℚ) * (1 - flex))
            ((max_tokens : ℚ) * (1 + flex)) titleSplitter text).2).2
      refine ⟨p1 ++ p2 ++ p3,
        (try_split tk ((max_tokens : ℚ) * (1 - flex))
          ((max_tokens : ℚ) * (1 + flex)) sentSplitter
          (try_split tk ((max_tokens : ℚ) * (1 - flex))
            ((max_tokens : ℚ) * (1 + flex)) paraSplitter
            (try_split tk ((max_tokens : ℚ) * (1 - flex))
              ((max_tokens : ℚ) * (1 + flex)) titleSplitter text).2).2).2,
        ?_, ?_, ?_⟩
      · rw [split_text]
        simp only [if_neg hc1, if_neg hc2]
        simp [h11, h21, h31, List.map_append, List.append_assoc]
      · simp only [List.flatten_append, List.append_assoc]
        rw [h32, h22, h12]
      · intro p hp
        rcases List.mem_append.mp hp with h | h
        · rcases List.mem_append.mp h with h2 | h2
          · exact h13 p h2
          · exact h23 p h2
        · exact h33 p h

/-- C2: for every non-empty input text whose token count exceeds
`max_tokens`, the chunks returned by `split_text`, concatenated in order,
reconstruct the original text up to the joining whitespace at chunk
boundaries (the only whitespace the committed buffers are trimmed of, which
rejoining reinstates): the text is exactly the chunks in order interleaved
with whitespace-only runs, and consequently — ignoring whitespace — the
concatenation loses no character and duplicates none, in order. -/
theorem split_text_reconstruction (tk : List Char → ℕ) (text : List Char)
    (max_tokens : ℕ) (flex : ℚ) (hne : text ≠ [])
    (hlong : max_tokens < tk text) :
    WsJoin (split_text tk text max_tokens flex) text ∧
    (split_text tk text max_tokens flex).flatten.filter
        (fun c => !(isPySpace c)) =
      text.filter (fun c => !(isPySpace c)) := by
  obtain ⟨committed, leftover, heq, hflat, _⟩ :=
    split_text_decomp tk text max_tokens flex
  have hws : WsJoin (split_text tk text max_tokens flex) text := by
    rw [heq, ← hflat]
    refine wsJoin_append _ _ (wsJoin_map_strip committed) _ _ ?_
    by_cases hl : leftover = []
    · subst hl
      simp only [if_pos rfl]
      exact WsJoin.nil [] (by simp)
    · rw [if_neg hl]
      exact wsJoin_single_strip leftover
  exact ⟨hws, wsJoin_filter _ _ hws⟩

theorem split_text_reconstruction_witness :
    ((['a', 'b', '.', ' ', 'c'] : List Char) ≠ [] ∧
      1 < List.length ['a', 'b', '.', ' ', 'c']) ∧
    WsJoin (split_text List.length ['a', 'b', '.', ' ', 'c'] 1 (1/2))
      ['a', 'b', '.', ' ', 'c'] ∧
    (split_text List.length ['a', 'b', '.', ' ', 'c'] 1 (1/2)).flatten.filter
        (fun c => !(isPySpace c)) =
      (['a', 'b', '.', ' ', 'c'] : List Char).filter
        (fun c => !(isPySpace c)) := by
  have h := split_text_reconstruction List.length ['a', 'b', '.', ' ', 'c'] 1
    (1/2) (by decide) (by decide)
  exact ⟨⟨by decide, by decide⟩, h.1, h.2⟩

/-- C7: in each stage of `split_text` the running buffer is committed as a
finished chunk exactly when its token count — measured on the untrimmed
buffer — lies within `[max_tokens*(1-flexibility),
max_tokens*(1+flexibility)]` (second conjunct, the two branches of the
accumulation step); consequently the emitted chunk list consists of trimmed
committed buffers that all lie in that window, followed by at most one final
leftover chunk which, when non-empty, is emitted whole (trimmed but not
further split) even when its size is outside the window (first conjunct). -/
theorem split_text_window (tk : List Char → ℕ) (text : List Char)
    (max_tokens : ℕ) (flex : ℚ) :
    (∃ (committed : List (List Char)) (leftover : List Char),
      split_text tk text max_tokens flex =
        committed.map pyStrip ++
          (if leftover = [] then [] else [pyStrip leftover]) ∧
      ∀ p ∈ committed,
        (max_tokens : ℚ) * (1 - flex) ≤ (tk p : ℚ) ∧
        (tk p : ℚ) ≤ (max_tokens : ℚ) * (1 + flex)) ∧
    (∀ (parts : List (List Char)) (acc part : List Char),
      (((max_tokens : ℚ) * (1 - flex) ≤ (tk (acc ++ part) : ℚ) ∧
        (tk (acc ++ part) : ℚ) ≤ (max_tokens : ℚ) * (1 + flex)) →
        try_split_go tk ((max_tokens : ℚ) * (1 - flex))
            ((max_tokens : ℚ) * (1 + flex)) (part :: parts) acc =
          (pyStrip (acc ++ part) ::
            (try_split_go tk ((max_tokens : ℚ) * (1 - flex))
              ((max_tokens : ℚ) * (1 + flex)) parts []).1,
           (try_split_go tk ((max_tokens : ℚ) * (1 - flex))
             ((max_tokens : ℚ) * (1 + flex)) parts []).2)) ∧
      (¬ ((max_tokens : ℚ) * (1 - flex) ≤ (tk (acc ++ part) : ℚ) ∧
        (tk (acc ++ part) : ℚ) ≤ (max_tokens : ℚ) * (1 + flex)) →
        try_split_go tk ((max_tokens : ℚ) * (1 - flex))
            ((max_tokens : ℚ) * (1 + flex)) (part :: parts) acc =
          try_split_go tk ((max_tokens : ℚ) * (1 - flex))
            ((max_tokens : ℚ) * (1 + flex)) parts (acc ++ part))) := by
  constructor
  · obtain ⟨committed, leftover, heq, _, hwin⟩ :=
      split_text_decomp tk text max_tokens flex
    exact ⟨committed, leftover, heq, hwin⟩
  · intro parts acc part
    constructor
    · intro hw
      simp only [try_split_go, if_pos hw]
    · intro hw
      simp only [try_split_go, if_neg hw]

theorem split_text_window_witness :
    (∃ (committed : List (List Char)) (leftover : List Char),
      split_text List.length ['a', 'b'] 4 (1/2) =
        committed.map pyStrip ++
          (if leftover = [] then [] else [pyStrip leftover]) ∧
      ∀ p ∈ committed,
        ((4 : ℕ) : ℚ) * (1 - 1/2) ≤ (List.length p : ℚ) ∧
        (List.length p : ℚ) ≤ ((4 : ℕ) : ℚ) * (1 + 1/2)) ∧
    (((4 : ℕ) : ℚ) * (1 - 1/2) ≤ (List.length (['a'] ++ ['b']) : ℚ) ∧
      (List.length (['a'] ++ ['b']) : ℚ) ≤ ((4 : ℕ) : ℚ) * (1 + 1/2)) ∧
    try_split_go List.length (((4 : ℕ) : ℚ) * (1 - 1/2))
        (((4 : ℕ) : ℚ) * (1 + 1/2)) [['b']] ['a'] =
      (pyStrip (['a'] ++ ['b']) ::
        (try_split_go List.length (((4 : ℕ) : ℚ) * (1 - 1/2))
          (((4 : ℕ) : ℚ) * (1 + 1/2)) [] []).1,
       (try_split_go List.length (((4 : ℕ) : ℚ) * (1 - 1/2))
         (((4 : ℕ) : ℚ) * (1 + 1/2)) [] []).2) := by
  have h := split_text_window List.length ['a', 'b'] 4 (1/2)
  have hwcond : ((4 : ℕ) : ℚ) * (1 - 1/2) ≤ (List.length (['a'] ++ ['b']) : ℚ) ∧
      (List.length (['a'] ++ ['b']) : ℚ) ≤ ((4 : ℕ) : ℚ) * (1 + 1/2) := by
    constructor <;> · simp
                      norm_num
  exact ⟨h.1, hwcond, (h.2 [] ['a'] ['b']).1 hwcond⟩

theorem getD_set_self (l : List String) (i : ℕ) (a : String)
    (hi : i < l.length) : (l.set i a).getD i "" = a := by
  simp [List.getD_eq_getElem?_getD, List.getElem?_set_self hi]

theorem getD_set_ne (l : List String) (i j : ℕ) (a : String) (hij : i ≠ j) :
    (l.set i a).getD j "" = l.getD j "" := by
  simp [List.getD_eq_getElem?_getD, List.getElem?_set_ne hij]

theorem zip_append_left {α β : Type} :
    ∀ (l1 l2 : List α) (r : List β), r.length ≤ l1.length →
    (l1 ++ l2).zip r = l1.zip r := by
  intro l1
  induction l1 with
  | nil =>
    intro l2 r hr
    have : r = [] := List.length_eq_zero.mp (Nat.le_zero.mp hr)
    subst this
    simp
  | cons a l1 ih =>
    intro l2 r hr
    cases r with
    | nil => simp
    | cons b r =>
      simp only [List.cons_append, List.zip_cons_cons, List.cons.injEq,
        true_and]
      exact ih l2 r (by simpa using hr)

theorem outcomes_getD (body1 : ℕ → ℕ → Except String String)
    (uid1 : ℕ → String) (chunks : List (List Char)) (j : ℕ)
    (hj : j < chunks.length) :
    (chunks.enum.map
        (fun ic => process_chunk (body1 ic.1) (uid1 ic.1) ic.2 ic.1 0)).getD j
      defaultChunkOutcome =
    process_chunk (body1 j) (uid1 j) (chunks.getD j []) j 0 := by
  have hlen : j < (chunks.enum.map
      (fun ic => process_chunk (body1 ic.1) (uid1 ic.1) ic.2 ic.1 0)).length := by
    simp [hj]
  rw [List.getD_eq_getElem?_getD, List.getElem?_eq_getElem hlen]
  rw [List.getD_eq_getElem?_getD, List.getElem?_eq_getElem hj]
  simp [List.getElem_enum]

theorem mem_completionOrderJoin (outs : List ChunkOutcome) (σ : List ℕ)
    (x : ℕ × List Char) :
    x ∈ completionOrderJoin outs σ ↔
      ∃ j ∈ σ, x ∈ (outs.getD j defaultChunkOutcome).failed := by
  unfold completionOrderJoin
  simp [List.mem_flatten]

theorem mem_failed_iff (body1 : ℕ → ℕ → Except String String)
    (uid1 : ℕ → String) (chunks : List (List Char)) (σ : List ℕ)
    (hσ : σ.Perm (List.range chunks.length)) (i : ℕ) (c : List Char) :
    ((i, c) ∈ completionOrderJoin
        (chunks.enum.map
          (fun ic => process_chunk (body1 ic.1) (uid1 ic.1) ic.2 ic.1 0)) σ ↔
      (i < chunks.length ∧ c = chunks.getD i [] ∧
        (process_chunk (body1 i) (uid1 i) (chunks.getD i []) i 0).failed ≠ [])) := by
  rw [mem_completionOrderJoin]
  constructor
  · rintro ⟨j, hjσ, hjmem⟩
    have hjN : j < chunks.length := by
      have := hσ.mem_iff.mp hjσ
      simpa [List.mem_range] using this
    rw [outcomes_getD body1 uid1 chunks j hjN] at hjmem
    rcases process_chunk_failed_cases (body1 j) (uid1 j) (chunks.getD j []) j
      5 0 rfl with h | h
    · rw [h] at hjmem
      exact absurd hjmem (List.not_mem_nil _)
    · rw [h] at hjmem
      simp only [List.mem_singleton, Prod.mk.injEq] at hjmem
      obtain ⟨rfl, rfl⟩ := hjmem
      exact ⟨hjN, rfl, by rw [h]; simp⟩
  · rintro ⟨hiN, hc, hfail⟩
    refine ⟨i, ?_, ?_⟩
    · exact hσ.mem_iff.mpr (List.mem_range.mpr hiN)
    · rw [outcomes_getD body1 uid1 chunks i hiN]
      rcases process_chunk_failed_cases (body1 i) (uid1 i) (chunks.getD i []) i
        5 0 rfl with h | h
      · exact absurd h hfail
      · rw [h, hc]
        exact List.mem_singleton.mpr rfl

theorem foldl_set_getD (g : ℕ × List Char → String)
    (chunkOf : ℕ → List Char) :
    ∀ (L : List (ℕ × List Char)) (acc : List String),
    (∀ x ∈ L, x.2 = chunkOf x.1) →
    (L.foldl (fun a x => a.set x.1 (g x)) acc).length = acc.length ∧
    (∀ i, i < acc.length →
      (L.foldl (fun a x => a.set x.1 (g x)) acc).getD i "" =
        if i ∈ L.map Prod.fst then g (i, chunkOf i) else acc.getD i "") := by
  intro L
  induction L with
  | nil =>
    intro acc _
    exact ⟨rfl, by simp⟩
  | cons x L ih =>
    intro acc hx
    have hx1 : x.2 = chunkOf x.1 := hx x (List.mem_cons_self x L)
    obtain ⟨ihlen, ihget⟩ := ih (acc.set x.1 (g x))
      (fun y hy => hx y (List.mem_cons_of_mem x hy))
    simp only [List.foldl_cons]
    constructor
    · rw [ihlen, List.length_set]
    · intro i hi
      rw [ihget i (by simp [hi])]
      by_cases hmem : i ∈ L.map Prod.fst
      · simp [hmem]
      · rw [if_neg hmem]
        by_cases hix : i = x.1
        · subst hix
          rw [getD_set_self acc x.1 (g x) hi, if_pos (by simp)]
          rw [show ((x.1 : ℕ), chunkOf x.1) = x from by rw [← hx1]]
        · rw [getD_set_ne acc x.1 i (g x) (fun h => hix h.symm)]
          rw [if_neg (by
            simp only [List.map_cons, List.mem_cons]
            rintro (h | h)
            · exact hix h
            · exact hmem h)]

theorem zip_self_map {α β : Type} (g : α → β) :
    ∀ l : List α, l.zip (l.map g) = l.map (fun x => (x, g x)) := by
  intro l
  induction l with
  | nil => simp
  | cons a l ih => simp [ih]

theorem translated_getD (body1 : ℕ → ℕ → Except String String)
    (uid1 : ℕ → String) (chunks : List (List Char)) (i : ℕ)
    (hi : i < chunks.length) :
    ((chunks.enum.map
        (fun ic => process_chunk (body1 ic.1) (uid1 ic.1) ic.2 ic.1 0)).map
      (fun o => o.result)).getD i "" =
    (process_chunk (body1 i) (uid1 i) (chunks.getD i []) i 0).result := by
  have hlen : i < ((chunks.enum.map
      (fun ic => process_chunk (body1 ic.1) (uid1 ic.1) ic.2 ic.1 0)).map
        (fun o => o.result)).length := by simp [hi]
  rw [List.getD_eq_getElem?_getD, List.getElem?_eq_getElem hlen]
  rw [List.getD_eq_getElem?_getD, List.getElem?_eq_getElem hi]
  simp [List.getElem_enum]

theorem mem_failed_fst_iff (body1 : ℕ → ℕ → Except String String)
    (uid1 : ℕ → String) (chunks : List (List Char)) (σ : List ℕ)
    (hσ : σ.Perm (List.range chunks.length)) (i : ℕ)
    (hi : i < chunks.length) :
    (i ∈ (completionOrderJoin
        (chunks.enum.map
          (fun ic => process_chunk (body1 ic.1) (uid1 ic.1) ic.2 ic.1 0))
        σ).map Prod.fst ↔
      (process_chunk (body1 i) (uid1 i) (chunks.getD i []) i 0).failed ≠ []) := by
  simp only [List.mem_map]
  constructor
  · rintro ⟨⟨a, c⟩, hxmem, hx1⟩
    dsimp at hx1
    subst hx1
    exact ((mem_failed_iff body1 uid1 chunks σ hσ a c).mp hxmem).2.2
  · intro h
    exact ⟨(i, chunks.getD i []),
      (mem_failed_iff body1 uid1 chunks σ hσ i (chunks.getD i [])).mpr
        ⟨hi, rfl, h⟩, rfl⟩

theorem final_chunks_getD (body2 : ℕ → ℕ → Except String String)
    (uid2 : ℕ → String) (translated : List String)
    (failed extra : List (ℕ × List Char)) (chunkOf : ℕ → List Char)
    (hmem : ∀ x ∈ failed, x.2 = chunkOf x.1) :
    (((failed ++ extra).zip ((failed.map
        (fun ic => process_chunk (body2 ic.1) (uid2 ic.1) ic.2 ic.1 0)).map
          (fun o => o.result))).foldl
      (fun acc p => acc.set p.1.1 p.2) translated).length = translated.length ∧
    ∀ i, i < translated.length →
      (((failed ++ extra).zip ((failed.map
          (fun ic => process_chunk (body2 ic.1) (uid2 ic.1) ic.2 ic.1 0)).map
            (fun o => o.result))).foldl
        (fun acc p => acc.set p.1.1 p.2) translated).getD i "" =
        if i ∈ failed.map Prod.fst
        then (process_chunk (body2 i) (uid2 i) (chunkOf i) i 0).result
        else translated.getD i "" := by
  rw [List.map_map]
  rw [zip_append_left failed extra _ (by simp), zip_self_map, List.foldl_map]
  have h := foldl_set_getD
    ((fun o => o.result) ∘
      (fun ic => process_chunk (body2 ic.1) (uid2 ic.1) ic.2 ic.1 0))
    chunkOf failed translated hmem
  exact h

theorem translate_markdown_segmented_core (tk : List Char → ℕ)
    (body1 body2 : ℕ → ℕ → Except String String) (uid1 uid2 : ℕ → String)
    (σ1 σ2 : List ℕ) (text : List Char) (mt : ℕ)
    (hseg : ¬ tk text < mt)
    (hσ1 : σ1.Perm (List.range (split_text tk text mt (1/2)).length)) :
    ∃ res : List String,
      (translate_markdown tk body1 body2 uid1 uid2 σ1 σ2 text mt).output =
        String.intercalate "\n\n" res ∧
      res.length = (split_text tk text mt (1/2)).length ∧
      ∀ i, i < (split_text tk text mt (1/2)).length →
        res.getD i "" =
          if (passOutcome body1 uid1 tk text mt i).failed = []
          then (passOutcome body1 uid1 tk text mt i).result
          else (passOutcome body2 uid2 tk text mt i).result := by
  have hpass1 : ∀ i, passOutcome body1 uid1 tk text mt i =
      process_chunk (body1 i) (uid1 i)
        ((split_text tk text mt (1/2)).getD i []) i 0 := fun _ => rfl
  have hpass2 : ∀ i, passOutcome body2 uid2 tk text mt i =
      process_chunk (body2 i) (uid2 i)
        ((split_text tk text mt (1/2)).getD i []) i 0 := fun _ => rfl
  simp only [translate_markdown]
  rw [if_neg hseg]
  by_cases hfe : completionOrderJoin
      ((split_text tk text mt (1/2)).enum.map
        (fun ic => process_chunk (body1 ic.1) (uid1 ic.1) ic.2 ic.1 0)) σ1 = []
  · rw [if_pos hfe]
    have hallempty : ∀ j, j < (split_text tk text mt (1/2)).length →
        (process_chunk (body1 j) (uid1 j)
          ((split_text tk text mt (1/2)).getD j []) j 0).failed = [] := by
      intro j hj
      rw [completionOrderJoin] at hfe
      have hmem : (((split_text tk text mt (1/2)).enum.map
            (fun ic => process_chunk (body1 ic.1) (uid1 ic.1) ic.2 ic.1 0)).getD j
          defaultChunkOutcome).failed ∈
          σ1.map (fun j => (((split_text tk text mt (1/2)).enum.map
            (fun ic => process_chunk (body1 ic.1) (uid1 ic.1) ic.2 ic.1 0)).getD j
              defaultChunkOutcome).failed) :=
        List.mem_map_of_mem _ (hσ1.mem_iff.mpr (List.mem_range.mpr hj))
      have := List.flatten_eq_nil_iff.mp hfe _ hmem
      rwa [outcomes_getD body1 uid1 _ j hj] at this
    refine ⟨((split_text tk text mt (1/2)).enum.map
      (fun ic => process_chunk (body1 ic.1) (uid1 ic.1) ic.2 ic.1 0)).map
        (fun o => o.result), rfl, ?_, ?_⟩
    · simp
    · intro i hi
      rw [translated_getD body1 uid1 _ i hi, hpass1 i, hpass2 i,
        if_pos (hallempty i hi)]
  · rw [if_neg hfe]
    have hmemf : ∀ x ∈ completionOrderJoin
        ((split_text tk text mt (1/2)).enum.map
          (fun ic => process_chunk (body1 ic.1) (uid1 ic.1) ic.2 ic.1 0)) σ1,
        x.2 = (split_text tk text mt (1/2)).getD x.1 [] := by
      rintro ⟨a, c⟩ hx
      exact ((mem_failed_iff body1 uid1 _ σ1 hσ1 a c).mp hx).2.1
    have h := final_chunks_getD body2 uid2
      (((split_text tk text mt (1/2)).enum.map
        (fun ic => process_chunk (body1 ic.1) (uid1 ic.1) ic.2 ic.1 0)).map
          (fun o => o.result))
      (completionOrderJoin ((split_text tk text mt (1/2)).enum.map
        (fun ic => process_chunk (body1 ic.1) (uid1 ic.1) ic.2 ic.1 0)) σ1)
      (completionOrderJoin ((completionOrderJoin
        ((split_text tk text mt (1/2)).enum.map
          (fun ic => process_chunk (body1 ic.1) (uid1 ic.1) ic.2 ic.1 0)) σ1).map
        (fun ic => process_chunk (body2 ic.1) (uid2 ic.1) ic.2 ic.1 0)) σ2)
      (fun j => (split_text tk text mt (1/2)).getD j []) hmemf
    refine ⟨_, rfl, ?_, ?_⟩
    · rw [h.1]
      simp
    · intro i hi
      have hlen : i < (((split_text tk text mt (1/2)).enum.map
          (fun ic => process_chunk (body1 ic.1) (uid1 ic.1) ic.2 ic.1 0)).map
            (fun o => o.result)).length := by
        rw [List.length_map, List.length_map, List.enum_length]
        exact hi
      rw [h.2 i hlen]
      by_cases hf : (process_chunk (body1 i) (uid1 i)
          ((split_text tk text mt (1/2)).getD i []) i 0).failed = []
      · rw [if_neg (by
          rw [mem_failed_fst_iff body1 uid1 _ σ1 hσ1 i hi]
          simpa using hf),
          translated_getD body1 uid1 _ i hi, hpass1 i, if_pos hf]
      · rw [if_pos ((mem_failed_fst_iff body1 uid1 _ σ1 hσ1 i hi).mpr hf),
          hpass1 i, hpass2 i, if_neg hf]

theorem translate_markdown_segmented_fields (tk : List Char → ℕ)
    (body1 body2 : ℕ → ℕ → Except String String) (uid1 uid2 : ℕ → String)
    (σ1 σ2 : List ℕ) (text : List Char) (mt : ℕ)
    (hseg : ¬ tk text < mt) :
    (translate_markdown tk body1 body2 uid1 uid2 σ1 σ2 text mt).segmented =
      true ∧
    (translate_markdown tk body1 body2 uid1 uid2 σ1 σ2 text mt).firstCalls =
      (split_text tk text mt (1/2)).enum ∧
    (translate_markdown tk body1 body2 uid1 uid2 σ1 σ2 text
        mt).failedAfterFirst =
      completionOrderJoin ((split_text tk text mt (1/2)).enum.map
        (fun ic => process_chunk (body1 ic.1) (uid1 ic.1) ic.2 ic.1 0)) σ1 ∧
    (translate_markdown tk body1 body2 uid1 uid2 σ1 σ2 text mt).retryCalls =
      (translate_markdown tk body1 body2 uid1 uid2 σ1 σ2 text
        mt).failedAfterFirst ∧
    ((translate_markdown tk body1 body2 uid1 uid2 σ1 σ2 text
        mt).retryPassRun = true ↔
      (translate_markdown tk body1 body2 uid1 uid2 σ1 σ2 text
        mt).failedAfterFirst ≠ []) := by
  simp only [translate_markdown]
  rw [if_neg hseg]
  by_cases hfe : completionOrderJoin
      ((split_text tk text mt (1/2)).enum.map
        (fun ic => process_chunk (body1 ic.1) (uid1 ic.1) ic.2 ic.1 0)) σ1 = []
  · rw [if_pos hfe]
    refine ⟨rfl, rfl, hfe.symm, rfl, ?_⟩
    simp
  · rw [if_neg hfe]
    refine ⟨rfl, rfl, rfl, rfl, ?_⟩
    simpa using hfe

/-- C1: in the segmented path, whatever the completion orders `σ1`, `σ2` of
the two concurrently gathered passes, `translate_markdown` returns the
per-chunk results joined in original index order with the blank-line
separator: the joined list has exactly N entries for N chunks, entry `i` is
the outcome produced for chunk `i` — the first-pass pipeline result when
that pass registered no failure, otherwise the retry-pass result, a
characterisation independent of the completion orders — and every entry is
either a translation returned by that chunk's guarded body or the error
placeholder string embedding that chunk's error identifier. -/
theorem translate_markdown_output_indexed (tk : List Char → ℕ)
    (body1 body2 : ℕ → ℕ → Except String String) (uid1 uid2 : ℕ → String)
    (σ1 σ2 : List ℕ) (text : List Char) (mt : ℕ)
    (hseg : ¬ tk text < mt)
    (hσ1 : σ1.Perm (List.range (split_text tk text mt (1/2)).length)) :
    ∃ res : List String,
      (translate_markdown tk body1 body2 uid1 uid2 σ1 σ2 text mt).output =
        String.intercalate "\n\n" res ∧
      res.length = (split_text tk text mt (1/2)).length ∧
      ∀ i, i < (split_text tk text mt (1/2)).length →
        (res.getD i "" =
          if (passOutcome body1 uid1 tk text mt i).failed = []
          then (passOutcome body1 uid1 tk text mt i).result
          else (passOutcome body2 uid2 tk text mt i).result) ∧
        (PipeOutcome (body1 i) (uid1 i) (res.getD i "") ∨
          PipeOutcome (body2 i) (uid2 i) (res.getD i "")) := by
  obtain ⟨res, h1, h2, h3⟩ := translate_markdown_segmented_core tk body1 body2
    uid1 uid2 σ1 σ2 text mt hseg hσ1
  refine ⟨res, h1, h2, ?_⟩
  intro i hi
  refine ⟨h3 i hi, ?_⟩
  rw [h3 i hi]
  by_cases hf : (passOutcome body1 uid1 tk text mt i).failed = []
  · rw [if_pos hf]
    exact Or.inl (process_chunk_outcome (body1 i) (uid1 i)
      (chunkAt tk text mt i) i 5 0 rfl)
  · rw [if_neg hf]
    exact Or.inr (process_chunk_outcome (body2 i) (uid2 i)
      (chunkAt tk text mt i) i 5 0 rfl)

theorem translate_markdown_output_indexed_witness :
    (¬ List.length ['a'] < 0) ∧
    ∃ res : List String,
      (translate_markdown List.length (fun _ _ => Except.ok "t")
          (fun _ _ => Except.ok "r") (fun _ => "u") (fun _ => "u")
          (List.range (split_text List.length ['a'] 0 (1/2)).length) []
          ['a'] 0).output = String.intercalate "\n\n" res ∧
      res.length = (split_text List.length ['a'] 0 (1/2)).length ∧
      ∀ i, i < (split_text List.length ['a'] 0 (1/2)).length →
        (res.getD i "" =
          if (passOutcome (fun _ _ => Except.ok "t") (fun _ => "u")
              List.length ['a'] 0 i).failed = []
          then (passOutcome (fun _ _ => Except.ok "t") (fun _ => "u")
              List.length ['a'] 0 i).result
          else (passOutcome (fun _ _ => Except.ok "r") (fun _ => "u")
              List.length ['a'] 0 i).result) ∧
        (PipeOutcome ((fun _ _ => Except.ok "t" :
              ℕ → ℕ → Except String String) i) ((fun _ => "u") i)
            (res.getD i "") ∨
          PipeOutcome ((fun _ _ => Except.ok "r" :
              ℕ → ℕ → Except String String) i) ((fun _ => "u") i)
            (res.getD i "")) := by
  refine ⟨by simp, ?_⟩
  exact translate_markdown_output_indexed List.length
    (fun _ _ => Except.ok "t") (fun _ _ => Except.ok "r") (fun _ => "u")
    (fun _ => "u") (List.range (split_text List.length ['a'] 0 (1/2)).length)
    [] ['a'] 0 (by simp) (List.Perm.refl _)

/-- C5: in the segmented path, the additional concurrent retry pass runs if
and only if the failed-chunk collection is non-empty after the first pass,
and then exactly once: the retry dispatches are exactly the first pass's
failed `(index, chunk)` entries — chunks failing again during the retry
pass are appended to the collection but trigger no further dispatches — and
each retried chunk's outcome overwrites the entry at that chunk's original
index in the result list, while every chunk whose first pass registered no
failure keeps its first-pass result. -/
theorem translate_markdown_single_retry_pass (tk : List Char → ℕ)
    (body1 body2 : ℕ → ℕ → Except String String) (uid1 uid2 : ℕ → String)
    (σ1 σ2 : List ℕ) (text : List Char) (mt : ℕ)
    (hseg : ¬ tk text < mt)
    (hσ1 : σ1.Perm (List.range (split_text tk text mt (1/2)).length)) :
    ((translate_markdown tk body1 body2 uid1 uid2 σ1 σ2 text
        mt).retryPassRun = true ↔
      (translate_markdown tk body1 body2 uid1 uid2 σ1 σ2 text
        mt).failedAfterFirst ≠ []) ∧
    (translate_markdown tk body1 body2 uid1 uid2 σ1 σ2 text mt).retryCalls =
      (translate_markdown tk body1 body2 uid1 uid2 σ1 σ2 text
        mt).failedAfterFirst ∧
    (∀ x ∈ (translate_markdown tk body1 body2 uid1 uid2 σ1 σ2 text
        mt).failedAfterFirst,
      x.1 < (split_text tk text mt (1/2)).length ∧
      x.2 = chunkAt tk text mt x.1 ∧
      (passOutcome body1 uid1 tk text mt x.1).failed ≠ []) ∧
    ∃ res : List String,
      (translate_markdown tk body1 body2 uid1 uid2 σ1 σ2 text mt).output =
        String.intercalate "\n\n" res ∧
      res.length = (split_text tk text mt (1/2)).length ∧
      (∀ x ∈ (translate_markdown tk body1 body2 uid1 uid2 σ1 σ2 text
          mt).failedAfterFirst,
        res.getD x.1 "" = (passOutcome body2 uid2 tk text mt x.1).result) ∧
      (∀ i, i < (split_text tk text mt (1/2)).length →
        (passOutcome body1 uid1 tk text mt i).failed = [] →
        res.getD i "" = (passOutcome body1 uid1 tk text mt i).result) := by
  obtain ⟨_, _, hfa, hrc, hrp⟩ := translate_markdown_segmented_fields tk body1
    body2 uid1 uid2 σ1 σ2 text mt hseg
  obtain ⟨res, h1, h2, h3⟩ := translate_markdown_segmented_core tk body1 body2
    uid1 uid2 σ1 σ2 text mt hseg hσ1
  refine ⟨hrp, hrc, ?_, res, h1, h2, ?_, ?_⟩
  · intro x hx
    rw [hfa] at hx
    obtain ⟨a, c⟩ := x
    have hm := (mem_failed_iff body1 uid1 _ σ1 hσ1 a c).mp hx
    exact ⟨hm.1, hm.2.1, hm.2.2⟩
  · intro x hx
    rw [hfa] at hx
    obtain ⟨a, c⟩ := x
    have hm := (mem_failed_iff body1 uid1 _ σ1 hσ1 a c).mp hx
    have hf : (passOutcome body1 uid1 tk text mt a).failed ≠ [] := hm.2.2
    rw [h3 a hm.1, if_neg hf]
  · intro i hi hem
    rw [h3 i hi, if_pos hem]

theorem translate_markdown_single_retry_pass_witness :
    (((translate_markdown List.length (fun _ _ => Except.error "x")
          (fun _ _ => Except.error "y") (fun _ => "u") (fun _ => "u")
          (List.range (split_text List.length ['a'] 0 (1/2)).length) []
          ['a'] 0).retryPassRun = true ↔
        (translate_markdown List.length (fun _ _ => Except.error "x")
          (fun _ _ => Except.error "y") (fun _ => "u") (fun _ => "u")
          (List.range (split_text List.length ['a'] 0 (1/2)).length) []
          ['a'] 0).failedAfterFirst ≠ []) ∧
      (translate_markdown List.length (fun _ _ => Except.error "x")
          (fun _ _ => Except.error "y") (fun _ => "u") (fun _ => "u")
          (List.range (split_text List.length ['a'] 0 (1/2)).length) []
          ['a'] 0).retryCalls =
        (translate_markdown List.length (fun _ _ => Except.error "x")
          (fun _ _ => Except.error "y") (fun _ => "u") (fun _ => "u")
          (List.range (split_text List.length ['a'] 0 (1/2)).length) []
          ['a'] 0).failedAfterFirst) ∧
    ∃ res : List String,
      (translate_markdown List.length (fun _ _ => Except.error "x")
          (fun _ _ => Except.error "y") (fun _ => "u") (fun _ => "u")
          (List.range (split_text List.length ['a'] 0 (1/2)).length) []
          ['a'] 0).output = String.intercalate "\n\n" res ∧
      res.length = (split_text List.length ['a'] 0 (1/2)).length ∧
      (∀ x ∈ (translate_markdown List.length (fun _ _ => Except.error "x")
          (fun _ _ => Except.error "y") (fun _ => "u") (fun _ => "u")
          (List.range (split_text List.length ['a'] 0 (1/2)).length) []
          ['a'] 0).failedAfterFirst,
        res.getD x.1 "" = (passOutcome (fun _ _ => Except.error "y")
          (fun _ => "u") List.length ['a'] 0 x.1).result) := by
  have h := translate_markdown_single_retry_pass List.length
    (fun _ _ => Except.error "x") (fun _ _ => Except.error "y") (fun _ => "u")
    (fun _ => "u") (List.range (split_text List.length ['a'] 0 (1/2)).length)
    [] ['a'] 0 (by simp) (List.Perm.refl _)
  obtain ⟨res, h1, h2, h3, _⟩ := h.2.2.2
  exact ⟨⟨h.1, h.2.1⟩, res, h1, h2, h3⟩
